import Mathlib

set_option maxRecDepth 100000

/-!
Shallow embedding of the Poseidon hash package (poseidon.go) over the BN254
scalar field. Field elements are natural numbers kept reduced modulo `p`;
`ff.Element` operations become `% p` arithmetic, `big.Int` values become `Nat`,
fallible functions return `Except String _`, and a possibly-nil `*big.Int`
result becomes `Option Nat`. The precomputed constant tables (C, S, M, P) are
not part of the source package, so every definition is parameterized by a
`Constants` record for the relevant state width.
-/

namespace Poseidon

/-- The BN254 scalar field prime, the modulus of `ff.Element`. -/
def p : Nat := 21888242871839275222246405745257275088548364400416034343698204186575808495617

/-- NROUNDSF constant from the Poseidon paper. -/
def NROUNDSF : Nat := 8

/-- NROUNDSP constant from the Poseidon paper, indexed by t-2. -/
def NROUNDSP : List Nat := [56, 57, 56, 60, 60, 63, 64, 63, 60, 66, 60, 65, 70, 60, 64, 68]

def spongeChunkSize : Nat := 31

def spongeInputs : Nat := 16

/-- The constant tables for one state width t: round constants `c`, sparse
factors `s`, MDS matrix `m` and pre-sparse matrix `p` (field `pmat` here since
`p` names the prime). -/
structure Constants where
  c : List Nat
  s : List Nat
  m : List (List Nat)
  pmat : List (List Nat)

/-- `exp5` performs x^5 mod p (`a.Exp(*a, big5)`). -/
def exp5 (a : Nat) : Nat := a ^ 5 % p

/-- `exp5state` performs exp5 for the whole state. -/
def exp5state (state : List Nat) : List Nat := state.map exp5

/-- `ark` computes Add-Round-Key: `state[i] += c[it+i]` for every i. -/
def ark (state c : List Nat) (it : Nat) : List Nat :=
  (List.range state.length).map fun i => (state.getD i 0 + c.getD (it + i) 0) % p

/-- `mixWithScratch` returns [[matrix]] * [vector]: scratch slot i accumulates
`m[j][i] * state[j]` over j, then the scratch replaces the state. -/
def mixWithScratch (state : List Nat) (m : List (List Nat)) : List Nat :=
  (List.range state.length).map fun i =>
    (List.range state.length).foldl
      (fun acc j => (acc + (m.getD j []).getD i 0 * state.getD j 0 % p) % p) 0

/-- One iteration of the partial-round loop of `hashElements`: S-box and ARK on
slot 0 only, `newState0` from the sparse row, fan-out of the (post S-box/ARK)
slot 0 into slots 1..t-1, then slot 0 replaced by `newState0`. -/
def partialRoundStep (C S : List Nat) (t i : Nat) (st : List Nat) : List Nat :=
  let s0 := (exp5 (st.getD 0 0) + C.getD ((NROUNDSF / 2 + 1) * t + i) 0) % p
  let st := st.set 0 s0
  let newState0 := (List.range st.length).foldl
    (fun acc j => (acc + S.getD ((t * 2 - 1) * i + j) 0 * st.getD j 0 % p) % p) 0
  let st := (List.range (t - 1)).foldl
    (fun st' k0 =>
      st'.set (k0 + 1) ((st'.getD (k0 + 1) 0 + s0 * S.getD ((t * 2 - 1) * i + t + k0) 0 % p) % p))
    st
  st.set 0 newState0

/-- `hashElements` runs the Poseidon permutation on a state of width t,
following the statement order of the Go function. -/
def hashElements (cst : Constants) (state : List Nat) : List Nat :=
  let t := state.length
  let nRoundsP := NROUNDSP.getD (t - 2) 0
  let st := ark state cst.c 0
  let st := (List.range (NROUNDSF / 2 - 1)).foldl
    (fun st i => mixWithScratch (ark (exp5state st) cst.c ((i + 1) * t)) cst.m) st
  let st := mixWithScratch (ark (exp5state st) cst.c ((NROUNDSF / 2) * t)) cst.pmat
  let st := (List.range nRoundsP).foldl (fun st i => partialRoundStep cst.c cst.s t i st) st
  let st := (List.range (NROUNDSF / 2 - 1)).foldl
    (fun st i =>
      mixWithScratch (ark (exp5state st) cst.c ((NROUNDSF / 2 + 1) * t + nRoundsP + i * t)) cst.m)
    st
  mixWithScratch (exp5state st) cst.m

/-- `utils.CheckBigIntInField`: the value is strictly below the modulus. -/
def CheckBigIntInField (a : Nat) : Bool := a < p

/-- `utils.CheckBigIntArrayInField`: every value is strictly below the modulus. -/
def CheckBigIntArrayInField (arr : List Nat) : Bool := arr.all fun a => a < p

/-- `HashWithStateEx` validates the inputs, builds the width-(n+1) state with
the init state in slot 0, runs the permutation, and returns the first `nOuts`
slots. -/
def HashWithStateEx (cst : Constants) (inpBI : List Nat) (initState : Nat) (nOuts : Nat) :
    Except String (List Nat) :=
  let t := inpBI.length + 1
  if inpBI.length = 0 ∨ inpBI.length > NROUNDSP.length then
    .error "invalid inputs length"
  else if ¬ CheckBigIntArrayInField inpBI then
    .error "inputs values not inside Finite Field"
  else if nOuts < 1 ∨ nOuts > t then
    .error "invalid nOuts"
  else if ¬ CheckBigIntInField initState then
    .error "initState values not inside Finite Field"
  else
    let state := initState % p :: inpBI.map (· % p)
    let state := hashElements cst state
    .ok (state.take nOuts)

/-- `HashWithState` computes the Poseidon hash for the given inputs and initState. -/
def HashWithState (cst : Constants) (inpBI : List Nat) (initState : Nat) :
    Except String Nat :=
  (HashWithStateEx cst inpBI initState 1).map fun res => res.getD 0 0

/-- `Hash` computes the Poseidon hash for the given inputs. -/
def Hash (cst : Constants) (inpBI : List Nat) : Except String Nat :=
  HashWithState cst inpBI 0

/-- `HashEx` returns the first nOuts outputs, including intermediate states. -/
def HashEx (cst : Constants) (inpBI : List Nat) (nOuts : Nat) : Except String (List Nat) :=
  HashWithStateEx cst inpBI 0 nOuts

/-- `hashWithStateExBytes`: length check and one permutation, returning
state[0] (the Go helper used by `HashBytesXLessAlloc`). -/
def hashWithStateExBytes (cst : Constants) (state : List Nat) : Except String Nat :=
  if state.length = 1 ∨ state.length - 1 > NROUNDSP.length then
    .error "invalid inputs length"
  else
    .ok ((hashElements cst state).getD 0 0)

/-- Big-endian interpretation of a byte sequence (`big.Int.SetBytes`). -/
def bytesToNat (bs : List Nat) : Nat := bs.foldl (fun acc b => acc * 256 + b) 0

/-- Right-pad a short final chunk with zero bytes to 31 bytes (the `copy` into
a zeroed 31-byte buffer). -/
def padTo31 (bs : List Nat) : List Nat := bs ++ List.replicate (31 - bs.length) 0

/-- The values of the full 31-byte chunks of a message, in order. -/
def fullChunkVals (msg : List Nat) : List Nat :=
  (List.range (msg.length / spongeChunkSize)).map fun i =>
    bytesToNat ((msg.drop (spongeChunkSize * i)).take spongeChunkSize)

/-- The value of the zero-padded final short chunk of a message. -/
def padChunkVal (msg : List Nat) : Nat :=
  bytesToNat (padTo31 (msg.drop (spongeChunkSize * (msg.length / spongeChunkSize))))

/-- Canonical 32-byte big-endian encoding of a field element
(`ff.Element.Bytes`). -/
def natToBytes32 (n : Nat) : List Nat :=
  (List.range 32).map fun i => n / 256 ^ (31 - i) % 256

/-- Loop state of the field-element sponge: the current frame, the next write
index k, the dirty flag, and the last digest (`nil` until first assigned). -/
abbrev SpongeState := List Nat × Nat × Bool × Option Nat

/-- One iteration of the absorb loop of `SpongeHashX`: write the input at
frame slot k; when the frame fills, hash it and chain the digest into slot 0
of a fresh frame. Errors from `Hash` short-circuit. -/
def spongeStep (cst : Constants) (frameSize : Nat) :
    Except String SpongeState → Nat → Except String SpongeState
  | .error e, _ => .error e
  | .ok (frame, k, _dirty, hash), v =>
    let frame := frame.set k v
    if k = frameSize - 1 then
      match Hash cst frame with
      | .error e => .error e
      | .ok h => .ok (h :: List.replicate (frameSize - 1) 0, 1, false, some h)
    else
      .ok (frame, k + 1, true, hash)

/-- After the absorb loop of `SpongeHashX`: if dirty, hash the final partial
frame, otherwise return the last chained digest (possibly still nil). -/
def spongeFinish (cst : Constants) : Except String SpongeState → Except String (Option Nat)
  | .error e => .error e
  | .ok (frame, _k, dirty, hash) =>
    if dirty then (Hash cst frame).map some else .ok hash

/-- `SpongeHashX` returns a sponge hash of inputs using Poseidon with a
configurable frame size. -/
def SpongeHashX (cst : Constants) (inputs : List Nat) (frameSize : Nat) :
    Except String (Option Nat) :=
  if frameSize < 2 ∨ frameSize > 16 then
    .error "incorrect frame size"
  else
    spongeFinish cst (inputs.foldl (spongeStep cst frameSize)
      (.ok (List.replicate frameSize 0, 0, false, none)))

/-- `SpongeHash` is `SpongeHashX` with a frame size of 16 inputs. -/
def SpongeHash (cst : Constants) (inputs : List Nat) : Except String (Option Nat) :=
  SpongeHashX cst inputs spongeInputs

/-- One iteration of the main chunk loop of `HashBytesX`; the Go loop body is
the same as the `SpongeHashX` loop body with the chunk value as input. -/
def byteStep (cst : Constants) (frameSize : Nat) :
    Except String SpongeState → Nat → Except String SpongeState
  | .error e, _ => .error e
  | .ok (inputs, k, _dirty, hash), v =>
    let inputs := inputs.set k v
    if k = frameSize - 1 then
      match Hash cst inputs with
      | .error e => .error e
      | .ok h => .ok (h :: List.replicate (frameSize - 1) 0, 1, false, some h)
    else
      .ok (inputs, k + 1, true, hash)

/-- After the chunk loop of `HashBytesX`: place the zero-padded final short
chunk (setting dirty) when the message length is not a multiple of 31, then
hash once more if dirty. -/
def byteFinish (cst : Constants) (msg : List Nat) :
    Except String SpongeState → Except String (Option Nat)
  | .error e => .error e
  | .ok (inputs, k, dirty, hash) =>
    let st : List Nat × Bool :=
      if msg.length % spongeChunkSize ≠ 0 then (inputs.set k (padChunkVal msg), true)
      else (inputs, dirty)
    if st.2 then (Hash cst st.1).map some else .ok hash

/-- `HashBytesX` returns a sponge hash of a msg byte slice split into blocks
of 31 bytes: absorb the full chunks, then place the zero-padded final short
chunk (setting dirty), and hash once more if dirty. -/
def HashBytesX (cst : Constants) (msg : List Nat) (frameSize : Nat) :
    Except String (Option Nat) :=
  if frameSize < 2 ∨ frameSize > 16 then
    .error "incorrect frame size"
  else
    byteFinish cst msg ((fullChunkVals msg).foldl (byteStep cst frameSize)
      (.ok (List.replicate frameSize 0, 0, false, none)))

/-- `HashBytes` is `HashBytesX` with a frame size of 16. -/
def HashBytes (cst : Constants) (msg : List Nat) : Except String (Option Nat) :=
  HashBytesX cst msg spongeInputs

/-- Loop state of `HashBytesXLessAlloc`: the width-(F+1) element state, the
next write index k, the dirty flag, and `currentHash` (an `ff.Element`,
starting at zero). -/
abbrev LessAllocState := List Nat × Nat × Bool × Nat

/-- One iteration of the main chunk loop of `HashBytesXLessAlloc`:
`SetBytesLessMod` writes the chunk value (reduced mod p) at state slot k;
when k reaches frameSize-1 the state is hashed, the digest chained into
slot 0, and the remaining slots zeroed. -/
def lessAllocStep (cst : Constants) (frameSize : Nat) :
    Except String LessAllocState → Nat → Except String LessAllocState
  | .error e, _ => .error e
  | .ok (state, k, _dirty, cur), v =>
    let state := state.set k (v % p)
    if k = frameSize - 1 then
      match hashWithStateExBytes cst state with
      | .error e => .error e
      | .ok h => .ok (h :: List.replicate frameSize 0, 1, false, h)
    else
      .ok (state, k + 1, true, cur)

/-- After the chunk loop of `HashBytesXLessAlloc`: the padding branch writes
the final short chunk at slot k but does not touch the dirty flag; the result
is the 32-byte big-endian encoding of `currentHash`. -/
def lessAllocFinish (cst : Constants) (msg : List Nat) :
    Except String LessAllocState → Except String (List Nat)
  | .error e => .error e
  | .ok (state, k, dirty, cur) =>
    let state :=
      if msg.length % spongeChunkSize ≠ 0 then state.set k (padChunkVal msg % p) else state
    if dirty then
      match hashWithStateExBytes cst state with
      | .error e => .error e
      | .ok h => .ok (natToBytes32 h)
    else
      .ok (natToBytes32 cur)

/-- `HashBytesXLessAlloc` returns a sponge hash of a msg byte slice split into
blocks of 31 bytes, reusing one width-(frameSize+1) state. -/
def HashBytesXLessAlloc (cst : Constants) (msg : List Nat) (frameSize : Nat) :
    Except String (List Nat) :=
  if frameSize < 2 ∨ frameSize > 16 then
    .error "incorrect frame size"
  else
    lessAllocFinish cst msg ((fullChunkVals msg).foldl (lessAllocStep cst frameSize)
      (.ok (List.replicate (frameSize + 1) 0, 0, false, 0)))

/-! Spec-side permutation, written from the §4.2 schedule of the
specification, to be compared with `hashElements`. -/

/-- Spec §4.2 ARK: add `C[off..off+t]` into the state element-wise. -/
def specArk (c : List Nat) (off : Nat) (state : List Nat) : List Nat :=
  (List.range state.length).map fun i => (state.getD i 0 + c.getD (off + i) 0) % p

/-- Spec §4.2 mix convention: output slot i accumulates
`Σ_j m[j][i] · state[j]`. -/
def specMix (m : List (List Nat)) (state : List Nat) : List Nat :=
  (List.range state.length).map fun i =>
    ((List.range state.length).map fun j => (m.getD j []).getD i 0 * state.getD j 0).sum % p

/-- Spec §4.2 step 4, one partial round: S-box on slot 0 only; add
`C[(F/2+1)·t+i]` to slot 0; new slot 0 is `Σ_j S[(2t−1)·i+j] · state[j]`
over the pre-update slots; each slot k ∈ 1..t−1 gains the pre-update
slot 0 times `S[(2t−1)·i+t+k−1]`. -/
def specPartialRound (C S : List Nat) (t i : Nat) (state : List Nat) : List Nat :=
  let s0 := (exp5 (state.getD 0 0) + C.getD ((8 / 2 + 1) * t + i) 0) % p
  let st := state.set 0 s0
  let new0 := ((List.range t).map fun j => S.getD ((2 * t - 1) * i + j) 0 * st.getD j 0).sum % p
  (List.range t).map fun k =>
    if k = 0 then new0
    else (st.getD k 0 + s0 * S.getD ((2 * t - 1) * i + t + k - 1) 0) % p

/-- Spec §4.2 permutation schedule: initial ARK; 3 full rounds with M; a
transition full round mixing with the pre-sparse matrix; nRoundsP partial
rounds; 3 full rounds with M; final S-box and mix with no ARK. -/
def specPermute (cst : Constants) (state : List Nat) : List Nat :=
  let t := state.length
  let nP := NROUNDSP.getD (t - 2) 0
  let st := specArk cst.c 0 state
  let st := (List.range 3).foldl
    (fun st i => specMix cst.m (specArk cst.c ((i + 1) * t) (st.map exp5))) st
  let st := specMix cst.pmat (specArk cst.c ((8 / 2) * t) (st.map exp5))
  let st := (List.range nP).foldl (fun st i => specPartialRound cst.c cst.s t i st) st
  let st := (List.range 3).foldl
    (fun st i => specMix cst.m (specArk cst.c ((8 / 2 + 1) * t + nP + i * t) (st.map exp5))) st
  specMix cst.m (st.map exp5)

/-- The chunk sequence of §4.3's byte sponge, as the claims describe it:
split the message into 31-byte chunks read big-endian, the final short chunk
zero-padded on the right to 31 bytes. -/
def spongeChunks (msg : List Nat) : List Nat :=
  fullChunkVals msg ++ if msg.length % spongeChunkSize ≠ 0 then [padChunkVal msg] else []

/-- The t×t identity matrix, used to build small concrete constant tables. -/
def idMatrix (t : Nat) : List (List Nat) :=
  (List.range t).map fun i => (List.range t).map fun j => if i = j then 1 else 0

/-- A small concrete constant table for width t, for evaluating the
definitions at concrete inputs: all round constants and sparse factors 1,
identity mixing matrices. -/
def mkToy (t : Nat) : Constants :=
  { c := List.replicate 300 1
    s := List.replicate 700 1
    m := idMatrix t
    pmat := idMatrix t }

/-! Helper lemmas. -/

theorem p_pos : 0 < p := by decide

/-- Folding `(acc + f x % p) % p` over a list from a reduced accumulator is
the sum of the `f x` modulo p. -/
theorem foldl_addmod (f : Nat → Nat) (l : List Nat) :
    ∀ a : Nat, a < p →
      l.foldl (fun acc j => (acc + f j % p) % p) a = (a + (l.map f).sum) % p := by
  induction l with
  | nil => intro a ha; simp [Nat.mod_eq_of_lt ha]
  | cons x xs ih =>
    intro a ha
    have hstep : (a + f x % p) % p < p := Nat.mod_lt _ p_pos
    simp only [List.foldl_cons, List.map_cons, List.sum_cons]
    rw [ih _ hstep, Nat.mod_add_mod]
    have hre : a + f x % p + (List.map f xs).sum
        = a + (List.map f xs).sum + f x % p := by ring
    rw [hre, Nat.add_mod_mod]
    congr 1
    ring

/-- A foldl over a list preserves an invariant of the accumulator. -/
theorem foldl_inv {α β : Type} (Inv : α → Prop) (f : α → β → α) (l : List β) (a : α)
    (ha : Inv a) (hf : ∀ st b, Inv st → Inv (f st b)) : Inv (l.foldl f a) := by
  induction l generalizing a with
  | nil => exact ha
  | cons x xs ih => exact ih _ (hf _ _ ha)

/-- Two foldls agree when their step functions agree on accumulators
satisfying a preserved invariant. -/
theorem foldl_congr_inv {α β : Type} (Inv : α → Prop) (f g : α → β → α) (l : List β)
    (a : α) (ha : Inv a) (hf : ∀ st b, Inv st → Inv (f st b))
    (hfg : ∀ st b, Inv st → f st b = g st b) : l.foldl f a = l.foldl g a := by
  induction l generalizing a with
  | nil => rfl
  | cons x xs ih => rw [List.foldl_cons, List.foldl_cons, ← hfg _ _ ha]; exact ih _ (hf _ _ ha)

theorem exp5state_length (state : List Nat) : (exp5state state).length = state.length := by
  simp [exp5state]

theorem ark_length (state c : List Nat) (it : Nat) : (ark state c it).length = state.length := by
  simp [ark]

theorem mixWithScratch_length (state : List Nat) (m : List (List Nat)) :
    (mixWithScratch state m).length = state.length := by
  simp [mixWithScratch]

theorem specArk_length (c : List Nat) (off : Nat) (state : List Nat) :
    (specArk c off state).length = state.length := by
  simp [specArk]

theorem specMix_length (m : List (List Nat)) (state : List Nat) :
    (specMix m state).length = state.length := by
  simp [specMix]

/-- The source mixing step agrees with the spec's sum-based convention. -/
theorem mixWithScratch_eq_specMix (state : List Nat) (m : List (List Nat)) :
    mixWithScratch state m = specMix m state := by
  unfold mixWithScratch specMix
  refine List.map_congr_left fun i _ => ?_
  rw [foldl_addmod (fun j => (m.getD j []).getD i 0 * state.getD j 0) _ 0 p_pos]
  simp

/-- The source ARK is the spec's element-wise ARK. -/
theorem ark_eq_specArk (state c : List Nat) (it : Nat) :
    ark state c it = specArk c it state := rfl

/-- Characterization of the partial-round fan-out loop: folding
`set (k0+1) (h k0 (old value))` over `k0 < n` updates exactly slots 1..n,
each from its own pre-loop value. -/
theorem foldl_set_range (h : Nat → Nat → Nat) (st : List Nat) (n : Nat) (hn : n < st.length) :
    ((List.range n).foldl (fun acc k0 => acc.set (k0 + 1) (h k0 (acc.getD (k0 + 1) 0))) st).length
        = st.length
    ∧ ∀ j, j < st.length →
      ((List.range n).foldl (fun acc k0 => acc.set (k0 + 1) (h k0 (acc.getD (k0 + 1) 0))) st).getD
          j 0
        = if 1 ≤ j ∧ j ≤ n then h (j - 1) (st.getD j 0) else st.getD j 0 := by
  induction n with
  | zero =>
    refine ⟨rfl, fun j _ => ?_⟩
    simp only [List.range_zero, List.foldl_nil]
    have : ¬ (1 ≤ j ∧ j ≤ 0) := by omega
    rw [if_neg this]
  | succ n ih =>
    obtain ⟨ihlen, ihget⟩ := ih (by omega)
    rw [List.range_succ, List.foldl_append, List.foldl_cons, List.foldl_nil]
    set L := (List.range n).foldl
      (fun acc k0 => acc.set (k0 + 1) (h k0 (acc.getD (k0 + 1) 0))) st with hL
    have hLn1 : L.getD (n + 1) 0 = st.getD (n + 1) 0 := by
      rw [ihget (n + 1) hn]
      have : ¬ (1 ≤ n + 1 ∧ n + 1 ≤ n) := by omega
      rw [if_neg this]
    refine ⟨by simp [ihlen], fun j hj => ?_⟩
    by_cases hje : j = n + 1
    · subst hje
      rw [List.getD_eq_getElem?_getD, List.getElem?_set_self (by omega : n + 1 < L.length)]
      simp only [Option.getD_some, hLn1]
      have : 1 ≤ n + 1 ∧ n + 1 ≤ n + 1 := by omega
      rw [if_pos this, Nat.add_sub_cancel]
    · rw [List.getD_eq_getElem?_getD, List.getElem?_set_ne (by omega : n + 1 ≠ j),
        ← List.getD_eq_getElem?_getD, ihget j hj]
      by_cases hjc : 1 ≤ j ∧ j ≤ n
      · rw [if_pos hjc, if_pos (by omega)]
      · rw [if_neg hjc, if_neg (by omega)]

/-- One source partial-round iteration agrees with the spec's partial round
on states of the right width. -/
theorem partialRoundStep_eq_spec (C S : List Nat) (t i : Nat) (st : List Nat)
    (ht : 2 ≤ t) (hlen : st.length = t) :
    partialRoundStep C S t i st = specPartialRound C S t i st := by
  have hmul : t * 2 - 1 = 2 * t - 1 := by omega
  unfold partialRoundStep specPartialRound
  simp only [NROUNDSF, hmul]
  generalize (exp5 (st.getD 0 0) + C.getD ((8 / 2 + 1) * t + i) 0) % p = s0
  generalize hst1 : st.set 0 s0 = st1
  have hlen1 : st1.length = t := by rw [← hst1, List.length_set, hlen]
  obtain ⟨hklen, hkget⟩ := foldl_set_range
    (fun k0 v => (v + s0 * S.getD ((2 * t - 1) * i + t + k0) 0 % p) % p) st1 (t - 1)
    (by omega)
  refine List.ext_getElem ?_ fun j hj1 hj2 => ?_
  · rw [List.length_set, hklen, hlen1, List.length_map, List.length_range]
  · have hjt : j < t := by rwa [List.length_set, hklen, hlen1] at hj1
    rw [List.getElem_map, List.getElem_range]
    by_cases hj0 : j = 0
    · subst hj0
      rw [List.getElem_set_self, if_pos rfl, hlen1,
        foldl_addmod (fun j => S.getD ((2 * t - 1) * i + j) 0 * st1.getD j 0) _ 0 p_pos,
        Nat.zero_add]
    · rw [List.getElem_set_ne (fun h => hj0 h.symm), if_neg hj0]
      have hgetD : ((List.range (t - 1)).foldl
          (fun acc k0 => acc.set (k0 + 1)
            ((acc.getD (k0 + 1) 0 + s0 * S.getD ((2 * t - 1) * i + t + k0) 0 % p) % p)) st1)[j]
          = ((List.range (t - 1)).foldl
          (fun acc k0 => acc.set (k0 + 1)
            ((acc.getD (k0 + 1) 0 + s0 * S.getD ((2 * t - 1) * i + t + k0) 0 % p) % p)) st1).getD
            j 0 := by
        rw [List.getD_eq_getElem?_getD, List.getElem?_eq_getElem (by omega), Option.getD_some]
      rw [hgetD, hkget j (by omega), if_pos (by omega), Nat.add_mod_mod]
      have hix : (2 * t - 1) * i + t + (j - 1) = (2 * t - 1) * i + t + j - 1 := by omega
      rw [hix]

/-- A fold of in-place `set` updates never changes the state length. -/
theorem length_foldl_set (l : List Nat) (fidx : Nat → Nat) (fval : List Nat → Nat → Nat)
    (st : List Nat) :
    (l.foldl (fun acc k => acc.set (fidx k) (fval acc k)) st).length = st.length := by
  induction l generalizing st with
  | nil => rfl
  | cons x xs ih => rw [List.foldl_cons, ih, List.length_set]

theorem specPartialRound_length (C S : List Nat) (t i : Nat) (st : List Nat) :
    (specPartialRound C S t i st).length = t := by
  simp [specPartialRound]

theorem partialRoundStep_length (C S : List Nat) (t i : Nat) (st : List Nat) :
    (partialRoundStep C S t i st).length = st.length := by
  unfold partialRoundStep
  rw [List.length_set,
    length_foldl_set _ (fun k0 => k0 + 1)
      (fun acc k0 =>
        ((acc.getD (k0 + 1) 0 +
          ((exp5 (st.getD 0 0) + C.getD ((NROUNDSF / 2 + 1) * t + i) 0) % p) *
            S.getD ((t * 2 - 1) * i + t + k0) 0 % p) % p)),
    List.length_set]

/-- C1 core: `hashElements` implements the §4.2 schedule `specPermute`. -/
theorem hashElements_eq_specPermute (cst : Constants) (state : List Nat)
    (h2 : 2 ≤ state.length) :
    hashElements cst state = specPermute cst state := by
  unfold hashElements specPermute
  simp only [NROUNDSF, show (8 : Nat) / 2 - 1 = 3 from rfl]
  set t := state.length with ht
  set nP := NROUNDSP.getD (t - 2) 0 with hnp
  set st1 := ark state cst.c 0 with hst1
  have hinit : specArk cst.c 0 state = st1 := hst1.symm
  rw [hinit]
  have hl1 : st1.length = t := by rw [hst1, ark_length]
  have hfull_step : ∀ (mm : List (List Nat)) (off : Nat) (st : List Nat),
      mixWithScratch (ark (exp5state st) cst.c off) mm
        = specMix mm (specArk cst.c off (st.map exp5)) :=
    fun mm off st => mixWithScratch_eq_specMix _ _
  have hspec_step_len : ∀ (mm : List (List Nat)) (off : Nat) (st : List Nat),
      (specMix mm (specArk cst.c off (st.map exp5))).length = st.length := by
    intro mm off st
    rw [specMix_length, specArk_length, List.length_map]
  have h1 : (List.range 3).foldl
        (fun st i => mixWithScratch (ark (exp5state st) cst.c ((i + 1) * t)) cst.m) st1
      = (List.range 3).foldl
        (fun st i => specMix cst.m (specArk cst.c ((i + 1) * t) (st.map exp5))) st1 :=
    foldl_congr_inv (fun _ : List Nat => True) _ _ _ _ trivial (fun _ _ _ => trivial)
      (fun st i _ => hfull_step cst.m ((i + 1) * t) st)
  rw [h1, hfull_step]
  have hl2 : ((List.range 3).foldl
      (fun st i => specMix cst.m (specArk cst.c ((i + 1) * t) (st.map exp5))) st1).length = t :=
    foldl_inv (fun l : List Nat => l.length = t) _ _ _ hl1 fun st i h =>
      (hspec_step_len cst.m ((i + 1) * t) st).trans h
  have hl3 : (specMix cst.pmat (specArk cst.c (8 / 2 * t)
      (((List.range 3).foldl
        (fun st i => specMix cst.m (specArk cst.c ((i + 1) * t) (st.map exp5))) st1).map
        exp5))).length = t := by
    rw [hspec_step_len]; exact hl2
  have hpart : ∀ init : List Nat, init.length = t →
      (List.range nP).foldl (fun st i => partialRoundStep cst.c cst.s t i st) init
        = (List.range nP).foldl (fun st i => specPartialRound cst.c cst.s t i st) init :=
    fun init hinitl =>
      foldl_congr_inv (fun l : List Nat => l.length = t) _ _ _ _ hinitl
        (fun st b h => (partialRoundStep_length cst.c cst.s t b st).trans h)
        (fun st b h => partialRoundStep_eq_spec cst.c cst.s t b st (by omega) h)
  rw [hpart _ hl3]
  have hl4 : ((List.range nP).foldl (fun st i => specPartialRound cst.c cst.s t i st)
      (specMix cst.pmat (specArk cst.c (8 / 2 * t)
        (((List.range 3).foldl
          (fun st i => specMix cst.m (specArk cst.c ((i + 1) * t) (st.map exp5))) st1).map
          exp5)))).length = t := by
    exact foldl_inv (fun l : List Nat => l.length = t) _ _ _ hl3
      fun st b h => specPartialRound_length cst.c cst.s t b st
  have h4 : (List.range 3).foldl
        (fun st i =>
          mixWithScratch (ark (exp5state st) cst.c ((8 / 2 + 1) * t + nP + i * t)) cst.m)
        ((List.range nP).foldl (fun st i => specPartialRound cst.c cst.s t i st)
          (specMix cst.pmat (specArk cst.c (8 / 2 * t)
            (((List.range 3).foldl
              (fun st i => specMix cst.m (specArk cst.c ((i + 1) * t) (st.map exp5))) st1).map
              exp5))))
      = (List.range 3).foldl
        (fun st i =>
          specMix cst.m (specArk cst.c ((8 / 2 + 1) * t + nP + i * t) (st.map exp5)))
        ((List.range nP).foldl (fun st i => specPartialRound cst.c cst.s t i st)
          (specMix cst.pmat (specArk cst.c (8 / 2 * t)
            (((List.range 3).foldl
              (fun st i => specMix cst.m (specArk cst.c ((i + 1) * t) (st.map exp5))) st1).map
              exp5)))) :=
    foldl_congr_inv (fun _ : List Nat => True) _ _ _ _ trivial (fun _ _ _ => trivial)
      (fun st i _ => hfull_step cst.m ((8 / 2 + 1) * t + nP + i * t) st)
  rw [h4, mixWithScratch_eq_specMix]
  rfl

/-- The permutation never changes the state length. -/
theorem hashElements_length (cst : Constants) (state : List Nat) :
    (hashElements cst state).length = state.length := by
  unfold hashElements
  rw [mixWithScratch_length, exp5state_length]
  exact foldl_inv (fun l : List Nat => l.length = state.length) _ _ _
    (foldl_inv (fun l : List Nat => l.length = state.length) _ _ _
      ((mixWithScratch_length _ _).trans ((ark_length _ _ _).trans ((exp5state_length _).trans
        (foldl_inv (fun l : List Nat => l.length = state.length) _ _ _ (ark_length _ _ _)
          fun st i h => (mixWithScratch_length _ _).trans ((ark_length _ _ _).trans
            ((exp5state_length _).trans h))))))
      fun st i h => (partialRoundStep_length _ _ _ _ _).trans h)
    fun st i h => (mixWithScratch_length _ _).trans ((ark_length _ _ _).trans
      ((exp5state_length _).trans h))

/-- Overwrite consecutive frame slots starting at index k with the given
values (the effect of the absorb loop when no frame boundary is reached). -/
def writeFrom (frame : List Nat) (k : Nat) : List Nat → List Nat
  | [] => frame
  | v :: vs => writeFrom (frame.set k v) (k + 1) vs

/-- While fewer than frameSize slots are filled, the absorb loop only writes
the inputs into consecutive slots, sets dirty, and never hashes. -/
theorem sponge_foldl_no_hash (cst : Constants) (F : Nat) :
    ∀ (x frame : List Nat) (k : Nat) (dirty : Bool) (hash : Option Nat),
      k + x.length < F →
      x.foldl (spongeStep cst F) (.ok (frame, k, dirty, hash))
        = .ok (writeFrom frame k x, k + x.length, dirty || !x.isEmpty, hash) := by
  intro x
  induction x with
  | nil => intro frame k dirty hash _; simp [writeFrom]
  | cons v vs ih =>
    intro frame k dirty hash hlt
    rw [List.foldl_cons]
    have hk : k ≠ F - 1 := by
      simp only [List.length_cons] at hlt
      omega
    rw [show spongeStep cst F (.ok (frame, k, dirty, hash)) v
        = .ok (frame.set k v, k + 1, true, hash) from by
      simp only [spongeStep]
      rw [if_neg hk]]
    rw [ih (frame.set k v) (k + 1) true hash (by simp only [List.length_cons] at hlt; omega)]
    simp only [writeFrom, List.isEmpty_cons, Bool.not_false, Bool.or_true, Bool.true_or]
    refine congrArg Except.ok ?_
    refine Prod.ext rfl (Prod.ext ?_ rfl)
    simp only [List.length_cons]
    omega

/-- Writing x into the zero slots after a prefix fills the frame front-to-back. -/
theorem writeFrom_append (x : List Nat) :
    ∀ (pre : List Nat) (suf : Nat),
      writeFrom (pre ++ List.replicate (x.length + suf) 0) pre.length x
        = pre ++ x ++ List.replicate suf 0 := by
  induction x with
  | nil => intro pre suf; simp [writeFrom]
  | cons v vs ih =>
    intro pre suf
    have hset : (pre ++ List.replicate ((v :: vs).length + suf) 0).set pre.length v
        = (pre ++ [v]) ++ List.replicate (vs.length + suf) 0 := by
      rw [List.length_cons, show vs.length + 1 + suf = (vs.length + suf) + 1 from by omega,
        List.replicate_succ, List.set_append_right _ _ (Nat.le_refl _), Nat.sub_self]
      simp
    rw [writeFrom, hset,
      show pre.length + 1 = (pre ++ [v]).length from by simp,
      ih (pre ++ [v]) suf]
    simp

/-- Writing x into a fresh zero frame of size F yields x right-padded with
zeros to length F. -/
theorem writeFrom_replicate (x : List Nat) (F : Nat) (h : x.length ≤ F) :
    writeFrom (List.replicate F 0) 0 x = x ++ List.replicate (F - x.length) 0 := by
  have := writeFrom_append x [] (F - x.length)
  simpa [show x.length + (F - x.length) = F from by omega] using this

/-- An error short-circuits the rest of the absorb loop. -/
theorem foldl_spongeStep_error (cst : Constants) (F : Nat) (e : String) (l : List Nat) :
    l.foldl (spongeStep cst F) (.error e) = .error e := by
  induction l with
  | nil => rfl
  | cons x xs ih => rw [List.foldl_cons]; exact ih

end Poseidon

namespace Poseidon

/-- C8: For every field element a in [0, p), `exp5` replaces a with a^5 mod p,
bit-for-bit equal to multiplying a by itself four times with modular
reduction. -/
theorem c8_exp5_matches_naive (a : Nat) (_ha : a < p) :
    exp5 a = (((a * a % p) * a % p) * a % p) * a % p := by
  unfold exp5
  conv_rhs => rw [Nat.mod_mul_mod, mul_assoc, Nat.mod_mul_mod, mul_assoc, Nat.mod_mul_mod]
  congr 1
  ring

theorem c8_witness :
    exp5 3 = (((3 * 3 % p) * 3 % p) * 3 % p) * 3 % p :=
  c8_exp5_matches_naive 3 (by decide)

/-- C9: `Hash(x)` is `HashWithState(x, 0)` — the same digest for valid inputs
and the same error for invalid ones. -/
theorem c9_hash_eq_hashWithState_zero (cst : Constants) (x : List Nat) :
    Hash cst x = HashWithState cst x 0 := rfl

/-- C6 (amended): `SpongeHashX` on the empty input sequence and `HashBytesX`
on the empty byte string return a nil digest together with a nil error: the
absorb loop never runs, dirty stays false, and the never-assigned digest is
returned as `.ok none`. -/
theorem c6_empty_input_returns_nil (cst : Constants) (F : Nat) (h2 : 2 ≤ F) (h16 : F ≤ 16) :
    SpongeHashX cst [] F = .ok none ∧ HashBytesX cst [] F = .ok none := by
  constructor
  · unfold SpongeHashX
    rw [if_neg (by omega)]
    rfl
  · unfold HashBytesX
    rw [if_neg (by omega)]
    rfl

/-- C6 counterexample: at frame size 2 with concrete constant tables, both
empty-input sponges succeed with a nil digest (`.ok none`), and that result
is not an error and is not the digest of the all-zero frame — the claim's
required behaviors both fail at this input. -/
theorem c6_counterexample :
    SpongeHashX (mkToy 3) [] 2 = .ok none ∧ HashBytesX (mkToy 3) [] 2 = .ok none ∧
      SpongeHashX (mkToy 3) [] 2 ≠ (Hash (mkToy 3) [0, 0]).map some := by
  refine ⟨rfl, rfl, ?_⟩
  intro h
  rw [show SpongeHashX (mkToy 3) [] 2 = .ok none from rfl] at h
  cases hd : Hash (mkToy 3) [0, 0] with
  | error e => rw [hd] at h; exact Except.noConfusion h
  | ok d => rw [hd] at h; exact Option.noConfusion (Except.ok.inj h)

theorem c6_witness :
    SpongeHashX (mkToy 3) [] 2 = .ok none ∧ HashBytesX (mkToy 3) [] 2 = .ok none :=
  c6_empty_input_returns_nil (mkToy 3) 2 (by decide) (by decide)

/-- C5: for 1 ≤ |x| ≤ F−1, the sponge absorbs x into a single frame and its
digest is `Hash` of x right-padded with zeros to length F. -/
theorem c5_sponge_single_frame (cst : Constants) (x : List Nat) (F : Nat)
    (hx1 : 1 ≤ x.length) (hx2 : x.length ≤ F - 1) (hF2 : 2 ≤ F) (hF16 : F ≤ 16) :
    SpongeHashX cst x F = (Hash cst (x ++ List.replicate (F - x.length) 0)).map some := by
  unfold SpongeHashX
  rw [if_neg (by omega),
    sponge_foldl_no_hash cst F x (List.replicate F 0) 0 false none (by omega)]
  have hxne : ¬ x.isEmpty := by
    cases x with
    | nil => simp at hx1
    | cons a as => simp
  have hdirty : (false || !x.isEmpty) = true := by
    simp [hxne]
  rw [hdirty, writeFrom_replicate x F (by omega)]
  rfl

theorem c5_witness :
    SpongeHashX (mkToy 3) [1] 2
      = (Hash (mkToy 3) ([1] ++ List.replicate (2 - [1].length) 0)).map some :=
  c5_sponge_single_frame (mkToy 3) [1] 2 (by decide) (by decide) (by decide) (by decide)

/-- The chunk loops of `HashBytesX` and `SpongeHashX` are the same function. -/
theorem byteStep_eq_spongeStep (cst : Constants) (F : Nat) :
    byteStep cst F = spongeStep cst F := rfl

/-- C3: `HashBytesX` equals `SpongeHashX` on the 31-byte chunk sequence of
the message (final short chunk right-zero-padded), for every non-empty
message. -/
theorem c3_hashBytesX_eq_sponge_on_chunks (cst : Constants) (msg : List Nat) (F : Nat)
    (_hne : msg ≠ []) (hF2 : 2 ≤ F) (hF16 : F ≤ 16) :
    HashBytesX cst msg F = SpongeHashX cst (spongeChunks msg) F := by
  unfold HashBytesX SpongeHashX spongeChunks
  rw [if_neg (by omega), if_neg (by omega), List.foldl_append, byteStep_eq_spongeStep]
  cases hfold : (fullChunkVals msg).foldl (spongeStep cst F)
      (Except.ok (List.replicate F 0, 0, false, none)) with
  | error e =>
    rw [foldl_spongeStep_error]
    rfl
  | ok quad =>
    obtain ⟨frame, k, dirty, hash⟩ := quad
    by_cases hmod : msg.length % spongeChunkSize = 0
    · have hpadnil : (if msg.length % spongeChunkSize ≠ 0
          then [padChunkVal msg] else ([] : List Nat)) = [] :=
        if_neg fun h => h hmod
      have hstid : (if msg.length % spongeChunkSize ≠ 0
          then (frame.set k (padChunkVal msg), true) else (frame, dirty)) = (frame, dirty) :=
        if_neg fun h => h hmod
      rw [hpadnil, List.foldl_nil]
      simp only [byteFinish, spongeFinish]
      rw [hstid]
    · have hpadone : (if msg.length % spongeChunkSize ≠ 0
          then [padChunkVal msg] else ([] : List Nat)) = [padChunkVal msg] :=
        if_pos hmod
      have hstset : (if msg.length % spongeChunkSize ≠ 0
          then (frame.set k (padChunkVal msg), true) else (frame, dirty))
          = (frame.set k (padChunkVal msg), true) :=
        if_pos hmod
      rw [hpadone, List.foldl_cons, List.foldl_nil]
      simp only [byteFinish]
      rw [hstset]
      simp only [spongeStep]
      by_cases hk : k = F - 1
      · subst hk
        rw [if_pos rfl]
        cases hh : Hash cst (frame.set (F - 1) (padChunkVal msg)) with
        | error e => rfl
        | ok d => rfl
      · rw [if_neg hk]
        rfl

/-- C4: `HashWithStateEx` errors exactly when a validation condition holds —
no inputs or more than 16, an input or the init state outside the field, or
nOuts outside [1, |inputs|+1] — and otherwise returns exactly nOuts values. -/
theorem c4_hashWithStateEx_validation (cst : Constants) (inpBI : List Nat)
    (initState nOuts : Nat) :
    match HashWithStateEx cst inpBI initState nOuts with
    | .error _ => inpBI.length = 0 ∨ 16 < inpBI.length ∨ (∃ x ∈ inpBI, p ≤ x)
        ∨ p ≤ initState ∨ nOuts < 1 ∨ inpBI.length + 1 < nOuts
    | .ok r => r.length = nOuts ∧ ¬(inpBI.length = 0 ∨ 16 < inpBI.length ∨ (∃ x ∈ inpBI, p ≤ x)
        ∨ p ≤ initState ∨ nOuts < 1 ∨ inpBI.length + 1 < nOuts) := by
  have hnr : NROUNDSP.length = 16 := rfl
  unfold HashWithStateEx
  split_ifs with h1 h2 h3
  · rcases h1 with h | h
    · exact Or.inl h
    · exact Or.inr (Or.inl (hnr ▸ h))
  · by_cases h4 : nOuts < 1 ∨ nOuts > inpBI.length + 1
    · dsimp only
      rw [if_pos h4]
      rcases h4 with h | h
      · exact Or.inr (Or.inr (Or.inr (Or.inr (Or.inl h))))
      · exact Or.inr (Or.inr (Or.inr (Or.inr (Or.inr h))))
    · dsimp only
      rw [if_neg h4]
      refine ⟨?_, ?_⟩
      · rw [List.length_take, hashElements_length]
        simp only [List.length_cons, List.length_map]
        omega
      · rintro (h | h | h | h | h | h)
        · exact h1 (Or.inl h)
        · exact h1 (Or.inr (by rw [hnr]; omega))
        · simp only [CheckBigIntArrayInField, List.all_eq_true, decide_eq_true_eq] at h2
          obtain ⟨x, hx, hpx⟩ := h
          exact absurd (h2 x hx) (not_lt.mpr hpx)
        · simp only [CheckBigIntInField, decide_eq_true_eq] at h3
          omega
        · exact h4 (Or.inl h)
        · exact h4 (Or.inr h)
  · by_cases h4 : nOuts < 1 ∨ nOuts > inpBI.length + 1
    · dsimp only
      rw [if_pos h4]
      rcases h4 with h | h
      · exact Or.inr (Or.inr (Or.inr (Or.inr (Or.inl h))))
      · exact Or.inr (Or.inr (Or.inr (Or.inr (Or.inr h))))
    · dsimp only
      rw [if_neg h4]
      refine Or.inr (Or.inr (Or.inr (Or.inl ?_)))
      simpa [CheckBigIntInField, not_lt] using h3
  · refine Or.inr (Or.inr (Or.inl ?_))
    simpa [CheckBigIntArrayInField, List.all_eq_true, not_lt] using h2

/-- C1: for every state of width 2..17 and every constant table,
`hashElements` performs exactly the §4.2 schedule `specPermute`: initial ARK,
three full rounds with M, a transition round mixing with the pre-sparse
matrix, the sparse partial rounds on slot 0 with pre-update fan-out, three
more full rounds with M, and a final S-box plus mix with no ARK, with every
mix sending input slot j to output slot i with coefficient m[j][i]. -/
theorem c1_hashElements_follows_schedule (cst : Constants) (state : List Nat)
    (h2 : 2 ≤ state.length) (_h17 : state.length ≤ 17) :
    hashElements cst state = specPermute cst state :=
  hashElements_eq_specPermute cst state h2

theorem c1_witness :
    hashElements (mkToy 2) [1, 2] = specPermute (mkToy 2) [1, 2] :=
  c1_hashElements_follows_schedule (mkToy 2) [1, 2] (by decide) (by decide)

theorem c3_witness :
    HashBytesX (mkToy 3) [97] 2 = SpongeHashX (mkToy 3) (spongeChunks [97]) 2 :=
  c3_hashBytesX_eq_sponge_on_chunks (mkToy 3) [97] 2 (by decide) (by decide) (by decide)

/-- C2 (code bug): on the one-byte message "a" with frame size 2, the padding
branch of `HashBytesXLessAlloc` never sets the dirty flag, so no hash is ever
computed and the function returns the 32 zero bytes of the never-assigned
`currentHash` — for every constant table. `HashBytesX` on the same input
hashes the padded chunk: with concrete tables its digest is nonzero, so its
canonical 32-byte encoding differs from the bytes `HashBytesXLessAlloc`
returned. -/
theorem c2_lessAlloc_divergence :
    (∀ cst : Constants, HashBytesXLessAlloc cst [97] 2 = .ok (List.replicate 32 0))
    ∧ HashBytesX (mkToy 3) [97] 2
        = .ok (some 17504664681511325051933224661489089643164068724048623045358956523865332320847)
    ∧ natToBytes32 17504664681511325051933224661489089643164068724048623045358956523865332320847
        ≠ List.replicate 32 0 :=
  ⟨fun cst => rfl, rfl, by decide⟩

end Poseidon
